import Mathlib

/-!
Verification of the key-extraction pipeline of tolgee-cli
(`src/extractor/runner.ts`) against its specification.

The embedding follows the source:

* `NullNamespace` is a JS `Symbol`, a tag distinct from every string; we
  model namespace identifiers as the tagged union `NsKey`.
* `filterExtractionResult` folds every extracted key of every file into a
  bucket map `FilteredKeys`, using the JS-falsy coercions
  `key.namespace || NullNamespace` (so the empty string collapses into the
  sentinel) and `key.defaultValue || null`.
* `extractKeysOfFiles` maps the resolved extractor over the discovered
  files, rewrites keys that lack a truthy namespace to the run-wide default
  namespace when that default is truthy, and fails as a whole when any
  file's extraction fails (`Promise.all` semantics).  The `files` list is
  the worker-completion order, which is also the insertion order of the
  `ExtractionResults` map.
-/

/-- One key occurrence found in one file (`ExtractedKey` of the extractor
types; the source field `namespace` is a Lean keyword, rendered `nspace`).
Absent optional fields are `none`; the JS empty string is `some ""`. -/
structure ExtractedKey where
  keyName : String
  nspace : Option String
  defaultValue : Option String
deriving DecidableEq, Repr

/-- Per-file extraction result: the ordered list of keys found there. -/
structure ExtractionResult where
  keys : List ExtractedKey
deriving DecidableEq, Repr

/-- The `Map<string, ExtractionResult>` built by `extractKeysOfFiles`,
as an association list in insertion (= completion) order. -/
abbrev ExtractionResults := List (String × ExtractionResult)

/-- Namespace identifier: the `NullNamespace` symbol sentinel, or a user
namespace string.  Being a tagged union, the sentinel is distinct from
every string, including `""` and `"null"`. -/
inductive NsKey where
  | NullNamespace : NsKey
  | str : String → NsKey
deriving DecidableEq, Repr

/-- A namespace bucket: `Map<string, string | null>` as an association
list in insertion order; `none` is JS `null`. -/
abbrev Bucket := List (String × Option String)

/-- The aggregated output of `filterExtractionResult`: namespace buckets
in creation order. -/
abbrev FilteredKeys := List (NsKey × Bucket)

/-- JS truthiness of an optional string: `undefined` and `""` are falsy. -/
def jsFalsy : Option String → Bool
  | none => true
  | some s => s == ""

/-- The default-namespace rewrite of `extractKeysOfFiles`:
`if (!key.namespace && defaultNamespace) key.namespace = defaultNamespace`. -/
def applyDefaultNs (d : Option String) (k : ExtractedKey) : ExtractedKey :=
  if jsFalsy k.nspace && !jsFalsy d then { k with nspace := d } else k

/-- `key.namespace || NullNamespace`: the effective namespace of a key;
a falsy namespace (absent or `""`) collapses into the sentinel. -/
def effNs (k : ExtractedKey) : NsKey :=
  match k.nspace with
  | none => NsKey.NullNamespace
  | some s => if s = "" then NsKey.NullNamespace else NsKey.str s

/-- `value || null`: the JS-falsy coercion applied to a default value
before storage (an absent or empty default value becomes `null`). -/
def normVal : Option String → Option String
  | none => none
  | some s => if s = "" then none else some s

/-- The value `filterExtractionResult` stores for a key:
`key.defaultValue || null`. -/
def storedValue (k : ExtractedKey) : Option String :=
  normVal k.defaultValue

/-- `Map.get` on a bucket. -/
def bucketGet : Bucket → String → Option (Option String)
  | [], _ => none
  | (kn', v) :: rest, kn => if kn' = kn then some v else bucketGet rest kn

/-- `Map.set` on a bucket: overwrite in place, else append. -/
def bucketSet : Bucket → String → Option String → Bucket
  | [], kn, v => [(kn, v)]
  | (kn', v') :: rest, kn, v =>
      if kn' = kn then (kn, v) :: rest else (kn', v') :: bucketSet rest kn v

/-- Property lookup `result[namespace]` followed by `Map.get`. -/
def fkGet : FilteredKeys → NsKey → String → Option (Option String)
  | [], _, _ => none
  | (ns', b) :: rest, ns, kn =>
      if ns' = ns then bucketGet b kn else fkGet rest ns kn

/-- `if (!(namespace in result)) result[namespace] = new Map()` followed by
`result[namespace].set(keyName, value)`. -/
def fkInsert : FilteredKeys → NsKey → String → Option String → FilteredKeys
  | [], ns, kn, v => [(ns, bucketSet [] kn v)]
  | (ns', b) :: rest, ns, kn, v =>
      if ns' = ns then (ns', bucketSet b kn v) :: rest
      else (ns', b) :: fkInsert rest ns kn v

/-- The loop body of `filterExtractionResult` for one extracted key. -/
def insertKey (fk : FilteredKeys) (k : ExtractedKey) : FilteredKeys :=
  fkInsert fk (effNs k) k.keyName (storedValue k)

/-- `filterExtractionResult` (runner.ts lines 43-57): fold every key of
every file, in map iteration order, into the bucket structure. -/
def filterExtractionResult (data : ExtractionResults) : FilteredKeys :=
  data.foldl (fun acc fr => fr.2.keys.foldl insertKey acc) []

/-- The error raised when a file's extractor throws. -/
structure ExtractionError where
  message : String
deriving DecidableEq, Repr

/-- The per-file default-namespace rewrite loop of `extractKeysOfFiles`. -/
def rewriteDefaultNs (d : Option String) (r : ExtractionResult) : ExtractionResult :=
  ⟨r.keys.map (applyDefaultNs d)⟩

/-- `extractKeysOfFiles` (runner.ts lines 20-40) after glob resolution:
`files` is the list of discovered files in worker-completion order,
`extract` the resolved extractor (`callWorker`).  `Promise.all` makes any
single failure fail the whole call, discarding all other results. -/
def extractKeysOfFiles (files : List String)
    (extract : String → Except ExtractionError ExtractionResult)
    (defaultNamespace : Option String) : Except ExtractionError ExtractionResults :=
  match files with
  | [] => Except.ok []
  | f :: fs =>
      match extract f with
      | Except.error e => Except.error e
      | Except.ok r =>
          match extractKeysOfFiles fs extract defaultNamespace with
          | Except.error e => Except.error e
          | Except.ok rest => Except.ok ((f, rewriteDefaultNs defaultNamespace r) :: rest)

/-- All extracted keys of a completed results map, in fold order. -/
def allKeys : ExtractionResults → List ExtractedKey
  | [] => []
  | fr :: rest => fr.2.keys ++ allKeys rest

/-- The last occurrence, in fold order, of a key matching a given
effective namespace and key name. -/
def lastMatch (ns : NsKey) (kn : String) : List ExtractedKey → Option ExtractedKey
  | [] => none
  | k :: ks =>
      match lastMatch ns kn ks with
      | some k' => some k'
      | none => if effNs k = ns ∧ k.keyName = kn then some k else none

theorem bucketGet_bucketSet (b : Bucket) (kn kn' : String) (v : Option String) :
    bucketGet (bucketSet b kn v) kn' =
      if kn = kn' then some v else bucketGet b kn' := by
  induction b with
  | nil =>
      by_cases h : kn = kn' <;> simp [bucketSet, bucketGet, h]
  | cons p rest ih =>
      obtain ⟨kn0, v0⟩ := p
      by_cases h0 : kn0 = kn
      · subst h0
        by_cases h : kn0 = kn' <;> simp [bucketSet, bucketGet, h]
      · by_cases h1 : kn0 = kn'
        · have hne : ¬kn = kn' := fun hh => h0 (h1.trans hh.symm)
          have hne' : ¬kn' = kn := fun hh => hne hh.symm
          simp [bucketSet, bucketGet, h0, h1, hne, hne']
        · by_cases h : kn = kn'
          · subst h
            simp [bucketSet, bucketGet, h0, ih]
          · simp [bucketSet, bucketGet, h0, h1, ih, h]

theorem fkGet_fkInsert (fk : FilteredKeys) (ns ns' : NsKey) (kn kn' : String)
    (v : Option String) :
    fkGet (fkInsert fk ns kn v) ns' kn' =
      if ns = ns' ∧ kn = kn' then some v else fkGet fk ns' kn' := by
  induction fk with
  | nil =>
      by_cases hns : ns = ns'
      · subst hns
        by_cases hkn : kn = kn' <;> simp [fkInsert, fkGet, bucketGet, hkn]
      · simp [fkInsert, fkGet, hns, fun (h : ns = ns' ∧ kn = kn') => hns h.1]
  | cons p rest ih =>
      obtain ⟨ns0, b0⟩ := p
      by_cases h0 : ns0 = ns
      · subst h0
        by_cases hns : ns0 = ns'
        · subst hns
          by_cases hkn : kn = kn' <;>
            simp [fkInsert, fkGet, bucketGet_bucketSet, hkn]
        · simp [fkInsert, fkGet, hns, fun (h : ns0 = ns' ∧ kn = kn') => hns h.1]
      · by_cases hns : ns0 = ns'
        · have hne : ¬(ns = ns' ∧ kn = kn') :=
            fun hh => h0 (hns.trans hh.1.symm)
          have hne' : ¬ns' = ns := fun hh => h0 (hns.trans hh)
          simp [fkInsert, fkGet, h0, hns, hne, hne']
        · simp [fkInsert, fkGet, h0, hns, ih]

/-- How one key insertion reads back. -/
theorem fkGet_insertKey (fk : FilteredKeys) (k : ExtractedKey) (ns : NsKey) (kn : String) :
    fkGet (insertKey fk k) ns kn =
      if effNs k = ns ∧ k.keyName = kn then some (storedValue k)
      else fkGet fk ns kn := by
  simp [insertKey, fkGet_fkInsert]

/-- Folding a list of keys reads back as its last matching occurrence. -/
theorem fkGet_foldl_insertKey (ks : List ExtractedKey) (fk : FilteredKeys)
    (ns : NsKey) (kn : String) :
    fkGet (ks.foldl insertKey fk) ns kn =
      match lastMatch ns kn ks with
      | some k => some (storedValue k)
      | none => fkGet fk ns kn := by
  induction ks generalizing fk with
  | nil => rfl
  | cons k ks ih =>
      simp only [List.foldl_cons, lastMatch]
      rw [ih]
      cases hlm : lastMatch ns kn ks with
      | some k' => simp
      | none =>
          by_cases hp : effNs k = ns ∧ k.keyName = kn <;>
            simp [fkGet_insertKey, hp]

/-- `filterExtractionResult` is the fold of `insertKey` over all keys in
map iteration order. -/
theorem filterExtractionResult_eq_foldl (data : ExtractionResults) :
    filterExtractionResult data = (allKeys data).foldl insertKey [] := by
  suffices h : ∀ (acc : FilteredKeys),
      data.foldl (fun acc fr => fr.2.keys.foldl insertKey acc) acc =
        (allKeys data).foldl insertKey acc from h []
  induction data with
  | nil => intro acc; rfl
  | cons fr rest ih =>
      intro acc
      simp only [List.foldl_cons, allKeys, List.foldl_append, ih]

/-- The main read-back lemma: lookup in the aggregated map is the stored
value of the last matching occurrence. -/
theorem fkGet_filterExtractionResult (data : ExtractionResults)
    (ns : NsKey) (kn : String) :
    fkGet (filterExtractionResult data) ns kn =
      match lastMatch ns kn (allKeys data) with
      | some k => some (storedValue k)
      | none => none := by
  rw [filterExtractionResult_eq_foldl, fkGet_foldl_insertKey]
  cases lastMatch ns kn (allKeys data) <;> rfl

theorem lastMatch_mem {ns : NsKey} {kn : String} {ks : List ExtractedKey}
    {k : ExtractedKey} (h : lastMatch ns kn ks = some k) :
    k ∈ ks ∧ effNs k = ns ∧ k.keyName = kn := by
  induction ks with
  | nil => simp [lastMatch] at h
  | cons k0 ks ih =>
      simp only [lastMatch] at h
      cases hlm : lastMatch ns kn ks with
      | some k' =>
          rw [hlm] at h
          obtain ⟨hmem, hrest⟩ := ih (hlm.trans (by rw [← h]))
          exact ⟨List.mem_cons_of_mem _ hmem, hrest⟩
      | none =>
          rw [hlm] at h
          by_cases hp : effNs k0 = ns ∧ k0.keyName = kn
          · rw [if_pos hp] at h
            cases h
            exact ⟨List.mem_cons_self _ _, hp⟩
          · rw [if_neg hp] at h
            cases h

theorem lastMatch_isSome {ns : NsKey} {kn : String} {ks : List ExtractedKey}
    {k : ExtractedKey} (hmem : k ∈ ks) (hns : effNs k = ns)
    (hkn : k.keyName = kn) : ∃ k', lastMatch ns kn ks = some k' := by
  induction ks with
  | nil => cases hmem
  | cons k0 ks ih =>
      simp only [lastMatch]
      cases hlm : lastMatch ns kn ks with
      | some k' => exact ⟨k', rfl⟩
      | none =>
          rcases List.mem_cons.mp hmem with heq | htail
          · subst heq
            exact ⟨k, by rw [if_pos ⟨hns, hkn⟩]⟩
          · obtain ⟨k', hk'⟩ := ih htail
            rw [hk'] at hlm
            cases hlm

/-- On success, every submitted file contributed its (rewritten) result to
the completed map. -/
theorem extractKeysOfFiles_ok_mem {files : List String}
    {ex : String → Except ExtractionError ExtractionResult}
    {d : Option String} {data : ExtractionResults} {f : String}
    (hok : extractKeysOfFiles files ex d = Except.ok data) (hf : f ∈ files) :
    ∃ r, ex f = Except.ok r ∧ (f, rewriteDefaultNs d r) ∈ data := by
  induction files generalizing data with
  | nil => cases hf
  | cons g gs ih =>
      simp only [extractKeysOfFiles] at hok
      cases hg : ex g with
      | error e => rw [hg] at hok; cases hok
      | ok r =>
          rw [hg] at hok
          cases hrest : extractKeysOfFiles gs ex d with
          | error e => rw [hrest] at hok; cases hok
          | ok rest =>
              rw [hrest] at hok
              cases hok
              rcases List.mem_cons.mp hf with heq | htail
              · subst heq
                exact ⟨r, hg, List.mem_cons_self _ _⟩
              · obtain ⟨r', hr', hmem⟩ := ih hrest htail
                exact ⟨r', hr', List.mem_cons_of_mem _ hmem⟩

theorem mem_allKeys {data : ExtractionResults} {f : String}
    {r : ExtractionResult} {k : ExtractedKey}
    (hfr : (f, r) ∈ data) (hk : k ∈ r.keys) : k ∈ allKeys data := by
  induction data with
  | nil => cases hfr
  | cons fr rest ih =>
      rcases List.mem_cons.mp hfr with heq | htail
      · subst heq
        exact List.mem_append_left _ hk
      · exact List.mem_append_right _ (ih htail)

/-- The key names of a bucket, in insertion order. -/
def bucketNames (b : Bucket) : List String := b.map Prod.fst

theorem bucketNames_bucketSet (b : Bucket) (kn : String) (v : Option String) :
    bucketNames (bucketSet b kn v) =
      if kn ∈ bucketNames b then bucketNames b else bucketNames b ++ [kn] := by
  induction b with
  | nil => simp [bucketSet, bucketNames]
  | cons p rest ih =>
      obtain ⟨kn0, v0⟩ := p
      by_cases h0 : kn0 = kn
      · subst h0
        simp [bucketSet, bucketNames]
      · have hne : ¬kn = kn0 := fun hh => h0 hh.symm
        rw [bucketSet, if_neg h0]
        by_cases hmem : kn ∈ bucketNames rest
        · have hc : kn ∈ bucketNames ((kn0, v0) :: rest) :=
            List.mem_cons.mpr (Or.inr hmem)
          rw [if_pos hc]
          show kn0 :: bucketNames (bucketSet rest kn v) =
            bucketNames ((kn0, v0) :: rest)
          rw [ih, if_pos hmem]
          rfl
        · have hc : ¬kn ∈ bucketNames ((kn0, v0) :: rest) :=
            fun hh => (List.mem_cons.mp hh).elim hne hmem
          rw [if_neg hc]
          show kn0 :: bucketNames (bucketSet rest kn v) =
            bucketNames ((kn0, v0) :: rest) ++ [kn]
          rw [ih, if_neg hmem]
          rfl

theorem bucketNames_nodup_bucketSet {b : Bucket} (kn : String) (v : Option String)
    (h : (bucketNames b).Nodup) : (bucketNames (bucketSet b kn v)).Nodup := by
  rw [bucketNames_bucketSet]
  by_cases hmem : kn ∈ bucketNames b
  · simp [hmem, h]
  · simp [hmem, List.nodup_append, h]

theorem bucketSet_ne_nil (b : Bucket) (kn : String) (v : Option String) :
    bucketSet b kn v ≠ [] := by
  cases b with
  | nil => simp [bucketSet]
  | cons p rest =>
      simp only [bucketSet]
      split <;> simp

/-- Well-formedness of the aggregate: every bucket has pairwise distinct
key names and at least one entry. -/
def BucketsWF (fk : FilteredKeys) : Prop :=
  ∀ p ∈ fk, (bucketNames p.2).Nodup ∧ p.2 ≠ []

theorem fkInsert_wf {fk : FilteredKeys} (ns : NsKey) (kn : String)
    (v : Option String) (h : BucketsWF fk) : BucketsWF (fkInsert fk ns kn v) := by
  induction fk with
  | nil =>
      intro p hp
      simp only [fkInsert] at hp
      rcases List.mem_singleton.mp hp with rfl
      exact ⟨by simp [bucketSet, bucketNames], by simp [bucketSet]⟩
  | cons q rest ih =>
      obtain ⟨ns0, b0⟩ := q
      intro p hp
      by_cases h0 : ns0 = ns
      · rw [fkInsert, if_pos h0] at hp
        rcases List.mem_cons.mp hp with rfl | htail
        · exact ⟨bucketNames_nodup_bucketSet kn v (h _ (List.mem_cons_self _ _)).1,
            bucketSet_ne_nil _ _ _⟩
        · exact h _ (List.mem_cons_of_mem _ htail)
      · rw [fkInsert, if_neg h0] at hp
        rcases List.mem_cons.mp hp with rfl | htail
        · exact h _ (List.mem_cons_self _ _)
        · exact ih (fun q hq => h q (List.mem_cons_of_mem _ hq)) _ htail

theorem foldl_insertKey_wf (ks : List ExtractedKey) {fk : FilteredKeys}
    (h : BucketsWF fk) : BucketsWF (ks.foldl insertKey fk) := by
  induction ks generalizing fk with
  | nil => exact h
  | cons k ks ih => exact ih (fkInsert_wf _ _ _ h)

/-- Every bucket produced by the aggregation is well-formed. -/
theorem filter_buckets_wf (data : ExtractionResults) :
    BucketsWF (filterExtractionResult data) := by
  rw [filterExtractionResult_eq_foldl]
  exact foldl_insertKey_wf _ (fun p hp => absurd hp (List.not_mem_nil p))

/-- Lookup under agreement: if every matching occurrence carries default
value `v`, the aggregate stores `v || null`, whatever the fold order. -/
theorem fkGet_of_agree (data : ExtractionResults) (ns : NsKey) (kn : String)
    (v : Option String)
    (hex : ∃ k ∈ allKeys data, effNs k = ns ∧ k.keyName = kn)
    (hagree : ∀ k ∈ allKeys data, effNs k = ns → k.keyName = kn →
      k.defaultValue = v) :
    fkGet (filterExtractionResult data) ns kn = some (normVal v) := by
  obtain ⟨k, hk, hns, hkn⟩ := hex
  obtain ⟨k', hk'⟩ := lastMatch_isSome hk hns hkn
  obtain ⟨hmem', hns', hkn'⟩ := lastMatch_mem hk'
  rw [fkGet_filterExtractionResult, hk']
  simp [storedValue, hagree k' hmem' hns' hkn']

/-- Normalisation of a default value is idempotent. -/
theorem normVal_normVal (v : Option String) : normVal (normVal v) = normVal v := by
  cases v with
  | none => rfl
  | some s =>
      by_cases h : s = "" <;> simp [normVal, h]

/-- Replace a key's default value by its stored form. -/
def scrubKey (k : ExtractedKey) : ExtractedKey :=
  { k with defaultValue := normVal k.defaultValue }

/-- Replace every default value in a results map by its stored form. -/
def scrubData (data : ExtractionResults) : ExtractionResults :=
  data.map (fun fr => (fr.1, ⟨fr.2.keys.map scrubKey⟩))

theorem insertKey_scrubKey (fk : FilteredKeys) (k : ExtractedKey) :
    insertKey fk (scrubKey k) = insertKey fk k := by
  simp [insertKey, scrubKey, effNs, storedValue, normVal_normVal]

theorem allKeys_scrubData (data : ExtractionResults) :
    allKeys (scrubData data) = (allKeys data).map scrubKey := by
  induction data with
  | nil => rfl
  | cons fr rest ih =>
      show fr.2.keys.map scrubKey ++ allKeys (scrubData rest) =
        List.map scrubKey (fr.2.keys ++ allKeys rest)
      rw [ih, List.map_append]

theorem filter_scrubData (data : ExtractionResults) :
    filterExtractionResult (scrubData data) = filterExtractionResult data := by
  rw [filterExtractionResult_eq_foldl, filterExtractionResult_eq_foldl,
    allKeys_scrubData]
  suffices h : ∀ (ks : List ExtractedKey) (acc : FilteredKeys),
      (ks.map scrubKey).foldl insertKey acc = ks.foldl insertKey acc from
    h (allKeys data) []
  intro ks
  induction ks with
  | nil => intro acc; rfl
  | cons k ks ih =>
      intro acc
      simp [insertKey_scrubKey, ih]

/-- Modelled from the spec: the worker-pool implementation behind
`callWorker` (`src/extractor/worker.ts`) is not part of the provided
sources; only its call site in `extractKeysOfFiles` is.  Following §4.3
and §5 of the specification, the pool is a transition system over a
scheduler state: files move from `pending` to `running` only while fewer
than `N` extractions are in flight, and from `running` to `completed`
when they settle; the concurrency-slot counter is the length of
`running`. -/
structure PoolState where
  pending : List String
  running : List String
  completed : List String
deriving DecidableEq, Repr

/-- The initial pool state for a batch of submitted files. -/
def initPool (files : List String) : PoolState :=
  ⟨files, [], []⟩

/-- Modelled from the spec: one scheduling step of the pool, with
concurrency capped at `N`. -/
inductive PoolStep (N : Nat) : PoolState → PoolState → Prop where
  | start (f : String) (rest : List String) (s : PoolState) :
      s.pending = f :: rest → s.running.length < N →
      PoolStep N s ⟨rest, f :: s.running, s.completed⟩
  | finish (f : String) (s : PoolState) :
      f ∈ s.running →
      PoolStep N s ⟨s.pending, s.running.erase f, f :: s.completed⟩

/-- States the pool can reach from the initial state of a batch. -/
inductive PoolReachable (N : Nat) (files : List String) : PoolState → Prop where
  | init : PoolReachable N files (initPool files)
  | step {s t : PoolState} : PoolReachable N files s → PoolStep N s t →
      PoolReachable N files t

example :
    filterExtractionResult
      [("a.ts", ⟨[⟨"hello", some "common", some "Hello"⟩]⟩),
       ("b.ts", ⟨[⟨"bye", none, some "Bye"⟩]⟩)] =
      [(NsKey.str "common", [("hello", some "Hello")]),
       (NsKey.NullNamespace, [("bye", some "Bye")])] := by decide

/-- C1: a key with no explicit namespace and no run-wide default namespace
lands in the null-namespace bucket of `filterExtractionResult`'s output
(the default-namespace rewrite with no default leaves the key untouched),
and the null-namespace sentinel is a distinct tag, never confusable with a
user namespace equal to `""` or to `"null"`. -/
theorem null_namespace_bucket_separation (data : ExtractionResults)
    (k : ExtractedKey) (hmem : k ∈ allKeys data) (hns : k.nspace = none) :
    applyDefaultNs none k = k ∧
    (fkGet (filterExtractionResult data) NsKey.NullNamespace k.keyName).isSome
      = true ∧
    NsKey.NullNamespace ≠ NsKey.str "" ∧
    NsKey.NullNamespace ≠ NsKey.str "null" := by
  have heff : effNs k = NsKey.NullNamespace := by simp [effNs, hns]
  obtain ⟨k', hk'⟩ := lastMatch_isSome hmem heff rfl
  refine ⟨by simp [applyDefaultNs, jsFalsy], ?_, by simp, by simp⟩
  rw [fkGet_filterExtractionResult, hk']
  rfl

/-- Witness for C1 at Scenario A's second file. -/
theorem null_namespace_bucket_separation_witness :
    (⟨"bye", none, some "Bye"⟩ : ExtractedKey) ∈
      allKeys [("b.ts", ⟨[⟨"bye", none, some "Bye"⟩]⟩)] ∧
    (fkGet (filterExtractionResult [("b.ts", ⟨[⟨"bye", none, some "Bye"⟩]⟩)])
      NsKey.NullNamespace "bye").isSome = true :=
  ⟨by decide,
    (null_namespace_bucket_separation
      [("b.ts", ⟨[⟨"bye", none, some "Bye"⟩]⟩)]
      ⟨"bye", none, some "Bye"⟩ (by decide) rfl).2.1⟩

/-- C2 counterexample: the rewrite guard `!key.namespace && defaultNamespace`
treats a supplied but empty default namespace as absent (JS falsiness), so
with `defaultNamespace = ""` a key lacking an explicit namespace still
lands in the null-namespace bucket — not in a default-namespace bucket —
refuting the claim for that input. -/
theorem default_namespace_empty_counterexample :
    extractKeysOfFiles ["b.ts"]
        (fun _ => Except.ok ⟨[⟨"bye", none, some "Bye"⟩]⟩) (some "") =
      Except.ok [("b.ts", ⟨[⟨"bye", none, some "Bye"⟩]⟩)] ∧
    filterExtractionResult [("b.ts", ⟨[⟨"bye", none, some "Bye"⟩]⟩)] =
      [(NsKey.NullNamespace, [("bye", some "Bye")])] ∧
    fkGet (filterExtractionResult [("b.ts", ⟨[⟨"bye", none, some "Bye"⟩]⟩)])
      (NsKey.str "") "bye" = none :=
  ⟨rfl, by decide, by decide⟩

/-- C2 (amended): for every run of `extractKeysOfFiles` where a NON-EMPTY
run-wide default namespace is supplied, every extracted key lacking an
explicit namespace is placed in the default-namespace bucket of the final
`FilteredKeys` and never in the null-namespace bucket (its effective
namespace is the default-namespace tag, distinct from the sentinel). -/
theorem default_namespace_applied (files : List String)
    (ex : String → Except ExtractionError ExtractionResult) (dn : String)
    (data : ExtractionResults) (f : String) (r : ExtractionResult)
    (k : ExtractedKey) (hdn : dn ≠ "")
    (hok : extractKeysOfFiles files ex (some dn) = Except.ok data)
    (hf : f ∈ files) (hr : ex f = Except.ok r) (hk : k ∈ r.keys)
    (hns : k.nspace = none) :
    effNs (applyDefaultNs (some dn) k) = NsKey.str dn ∧
    NsKey.str dn ≠ NsKey.NullNamespace ∧
    (fkGet (filterExtractionResult data) (NsKey.str dn) k.keyName).isSome
      = true := by
  obtain ⟨r', hr', hmem⟩ := extractKeysOfFiles_ok_mem hok hf
  rw [hr] at hr'
  injection hr' with hrr
  subst hrr
  have hk2 : applyDefaultNs (some dn) k ∈ (rewriteDefaultNs (some dn) r).keys :=
    List.mem_map_of_mem _ hk
  have hall : applyDefaultNs (some dn) k ∈ allKeys data := mem_allKeys hmem hk2
  have hfalse : jsFalsy (some dn) = false := by
    simp [jsFalsy, hdn]
  have heff : effNs (applyDefaultNs (some dn) k) = NsKey.str dn := by
    simp [applyDefaultNs, jsFalsy, hns, hfalse, effNs, hdn]
  have hname : (applyDefaultNs (some dn) k).keyName = k.keyName := by
    unfold applyDefaultNs
    split <;> rfl
  obtain ⟨k', hk'⟩ := lastMatch_isSome hall heff hname
  refine ⟨heff, by simp, ?_⟩
  rw [fkGet_filterExtractionResult, hk']
  rfl

/-- Witness for C2 (amended) at Scenario B: `defaultNamespace = "app"`
yields `{ common: {hello: "Hello"}, app: {bye: "Bye"} }`. -/
theorem default_namespace_applied_witness :
    extractKeysOfFiles ["a.ts", "b.ts"]
        (fun f => if f = "a.ts"
          then Except.ok ⟨[⟨"hello", some "common", some "Hello"⟩]⟩
          else Except.ok ⟨[⟨"bye", none, some "Bye"⟩]⟩) (some "app") =
      Except.ok [("a.ts", ⟨[⟨"hello", some "common", some "Hello"⟩]⟩),
        ("b.ts", ⟨[⟨"bye", some "app", some "Bye"⟩]⟩)] ∧
    filterExtractionResult
        [("a.ts", ⟨[⟨"hello", some "common", some "Hello"⟩]⟩),
         ("b.ts", ⟨[⟨"bye", some "app", some "Bye"⟩]⟩)] =
      [(NsKey.str "common", [("hello", some "Hello")]),
       (NsKey.str "app", [("bye", some "Bye")])] ∧
    (fkGet (filterExtractionResult
        [("a.ts", ⟨[⟨"hello", some "common", some "Hello"⟩]⟩),
         ("b.ts", ⟨[⟨"bye", some "app", some "Bye"⟩]⟩)])
      (NsKey.str "app") "bye").isSome = true :=
  ⟨rfl, by decide,
    (default_namespace_applied ["a.ts", "b.ts"]
      (fun f => if f = "a.ts"
        then Except.ok ⟨[⟨"hello", some "common", some "Hello"⟩]⟩
        else Except.ok ⟨[⟨"bye", none, some "Bye"⟩]⟩)
      "app"
      [("a.ts", ⟨[⟨"hello", some "common", some "Hello"⟩]⟩),
       ("b.ts", ⟨[⟨"bye", some "app", some "Bye"⟩]⟩)]
      "b.ts" ⟨[⟨"bye", none, some "Bye"⟩]⟩ ⟨"bye", none, some "Bye"⟩
      (by decide) rfl (by decide) rfl (by decide) rfl).2.2⟩

/-- C3: within each effective-namespace bucket the aggregate keeps exactly
one entry per key name (bucket key names are pairwise distinct), and the
lookup resolves last-write-wins: it yields the stored value of the
occurrence folded last in map iteration (completion) order, which is one
of the candidate stored values — never a merged value. -/
theorem aggregation_last_write_wins (data : ExtractionResults) (ns : NsKey)
    (kn : String) (k : ExtractedKey)
    (hlast : lastMatch ns kn (allKeys data) = some k) :
    fkGet (filterExtractionResult data) ns kn = some (storedValue k) ∧
    storedValue k ∈
      ((allKeys data).filter
        (fun kk => decide (effNs kk = ns ∧ kk.keyName = kn))).map storedValue ∧
    ∀ p ∈ filterExtractionResult data, (bucketNames p.2).Nodup := by
  obtain ⟨hmem, hns, hkn⟩ := lastMatch_mem hlast
  refine ⟨?_, ?_, fun p hp => (filter_buckets_wf data p hp).1⟩
  · rw [fkGet_filterExtractionResult, hlast]
  · exact List.mem_map_of_mem _
      (List.mem_filter.mpr ⟨hmem, by simp [hns, hkn]⟩)

/-- Witness for C3 at Scenario D: two files yield `ns.x` with different
values; the aggregate holds the value of the file folded last. -/
theorem aggregation_last_write_wins_witness :
    lastMatch (NsKey.str "ns") "x"
        (allKeys [("a.ts", ⟨[⟨"x", some "ns", some "one"⟩]⟩),
          ("b.ts", ⟨[⟨"x", some "ns", some "two"⟩]⟩)]) =
      some ⟨"x", some "ns", some "two"⟩ ∧
    fkGet (filterExtractionResult
        [("a.ts", ⟨[⟨"x", some "ns", some "one"⟩]⟩),
         ("b.ts", ⟨[⟨"x", some "ns", some "two"⟩]⟩)])
      (NsKey.str "ns") "x" = some (some "two") :=
  ⟨by decide,
    (aggregation_last_write_wins
      [("a.ts", ⟨[⟨"x", some "ns", some "one"⟩]⟩),
       ("b.ts", ⟨[⟨"x", some "ns", some "two"⟩]⟩)]
      (NsKey.str "ns") "x" ⟨"x", some "ns", some "two"⟩ (by decide)).1⟩

/-- C4: if the extractor fails for some submitted file, the whole
`extractKeysOfFiles` call fails and no completed results map — hence no
partial `FilteredKeys` — is returned. -/
theorem extraction_error_fails_whole_run (files : List String)
    (ex : String → Except ExtractionError ExtractionResult)
    (d : Option String) (f : String) (err : ExtractionError)
    (hf : f ∈ files) (he : ex f = Except.error err) :
    (∃ e, extractKeysOfFiles files ex d = Except.error e) ∧
    ∀ data, extractKeysOfFiles files ex d ≠ Except.ok data := by
  have herr : ∃ e, extractKeysOfFiles files ex d = Except.error e := by
    induction files with
    | nil => cases hf
    | cons g gs ih =>
        rcases List.mem_cons.mp hf with heq | htail
        · subst heq
          exact ⟨err, by simp [extractKeysOfFiles, he]⟩
        · cases hg : ex g with
          | error e => exact ⟨e, by simp [extractKeysOfFiles, hg]⟩
          | ok r =>
              obtain ⟨e, hrec⟩ := ih htail
              exact ⟨e, by simp [extractKeysOfFiles, hg, hrec]⟩
  obtain ⟨e, hfail⟩ := herr
  exact ⟨⟨e, hfail⟩, fun data hok => by rw [hfail] at hok; cases hok⟩

/-- Witness for C4 at Scenario C: the extractor for `c.ts` throws, so the
overall call fails. -/
theorem extraction_error_fails_whole_run_witness :
    "c.ts" ∈ ["a.ts", "b.ts", "c.ts"] ∧
    (∃ e, extractKeysOfFiles ["a.ts", "b.ts", "c.ts"]
        (fun f => if f = "c.ts"
          then Except.error ⟨"Extraction failed"⟩
          else Except.ok ⟨[]⟩) none =
      Except.error e) :=
  ⟨by decide,
    (extraction_error_fails_whole_run ["a.ts", "b.ts", "c.ts"]
      (fun f => if f = "c.ts"
        then Except.error ⟨"Extraction failed"⟩
        else Except.ok ⟨[]⟩) none "c.ts" ⟨"Extraction failed"⟩
      (by decide) rfl).1⟩

/-- C5: when every occurrence of a key in two files agrees on its default
value, the aggregate holds that value whichever of the two fold orders
completion chooses (order-independence when values agree). -/
theorem agreeing_values_order_independent (f1 f2 : String)
    (r1 r2 : ExtractionResult) (ns : NsKey) (kn : String) (v : Option String)
    (h1 : ∃ k ∈ r1.keys, effNs k = ns ∧ k.keyName = kn)
    (h2 : ∃ k ∈ r2.keys, effNs k = ns ∧ k.keyName = kn)
    (hagree : ∀ k ∈ r1.keys ++ r2.keys, effNs k = ns → k.keyName = kn →
      k.defaultValue = v) :
    fkGet (filterExtractionResult [(f1, r1), (f2, r2)]) ns kn
      = some (normVal v) ∧
    fkGet (filterExtractionResult [(f2, r2), (f1, r1)]) ns kn
      = some (normVal v) := by
  have hall1 : allKeys [(f1, r1), (f2, r2)] = r1.keys ++ (r2.keys ++ []) := rfl
  have hall2 : allKeys [(f2, r2), (f1, r1)] = r2.keys ++ (r1.keys ++ []) := rfl
  obtain ⟨k1, hk1, hp1⟩ := h1
  obtain ⟨k2, hk2, hp2⟩ := h2
  constructor
  · refine fkGet_of_agree _ ns kn v ⟨k1, ?_, hp1⟩ ?_
    · rw [hall1]
      exact List.mem_append_left _ hk1
    · intro k hk hns hkn
      rw [hall1] at hk
      rcases List.mem_append.mp hk with h | h
      · exact hagree k (List.mem_append_left _ h) hns hkn
      · rcases List.mem_append.mp h with h | h
        · exact hagree k (List.mem_append_right _ h) hns hkn
        · cases h
  · refine fkGet_of_agree _ ns kn v ⟨k2, ?_, hp2⟩ ?_
    · rw [hall2]
      exact List.mem_append_left _ hk2
    · intro k hk hns hkn
      rw [hall2] at hk
      rcases List.mem_append.mp hk with h | h
      · exact hagree k (List.mem_append_right _ h) hns hkn
      · rcases List.mem_append.mp h with h | h
        · exact hagree k (List.mem_append_left _ h) hns hkn
        · cases h

/-- Witness for C5: both files yield `("x", "ns", "v")`; either fold order
stores `"v"`. -/
theorem agreeing_values_order_independent_witness :
    fkGet (filterExtractionResult
        [("a.ts", ⟨[⟨"x", some "ns", some "v"⟩]⟩),
         ("b.ts", ⟨[⟨"x", some "ns", some "v"⟩]⟩)])
      (NsKey.str "ns") "x" = some (normVal (some "v")) ∧
    fkGet (filterExtractionResult
        [("b.ts", ⟨[⟨"x", some "ns", some "v"⟩]⟩),
         ("a.ts", ⟨[⟨"x", some "ns", some "v"⟩]⟩)])
      (NsKey.str "ns") "x" = some (normVal (some "v")) :=
  agreeing_values_order_independent "a.ts" "b.ts"
    ⟨[⟨"x", some "ns", some "v"⟩]⟩ ⟨[⟨"x", some "ns", some "v"⟩]⟩
    (NsKey.str "ns") "x" (some "v")
    (by decide) (by decide) (by decide)

/-- C6: `filterExtractionResult` is a pure function of its input map — in
this embedding it performs no effects, so two runs over the same completed
`ExtractionResults` return structurally identical `FilteredKeys`
(deterministic, idempotent aggregation). -/
theorem filter_pure_deterministic (d1 d2 : ExtractionResults) (h : d1 = d2) :
    filterExtractionResult d1 = filterExtractionResult d2 := by
  rw [h]

/-- Witness for C6: two runs over Scenario A's map agree. -/
theorem filter_pure_deterministic_witness :
    filterExtractionResult
        [("a.ts", ⟨[⟨"hello", some "common", some "Hello"⟩]⟩),
         ("b.ts", ⟨[⟨"bye", none, some "Bye"⟩]⟩)] =
      filterExtractionResult
        [("a.ts", ⟨[⟨"hello", some "common", some "Hello"⟩]⟩),
         ("b.ts", ⟨[⟨"bye", none, some "Bye"⟩]⟩)] :=
  filter_pure_deterministic
    [("a.ts", ⟨[⟨"hello", some "common", some "Hello"⟩]⟩),
     ("b.ts", ⟨[⟨"bye", none, some "Bye"⟩]⟩)]
    [("a.ts", ⟨[⟨"hello", some "common", some "Hello"⟩]⟩),
     ("b.ts", ⟨[⟨"bye", none, some "Bye"⟩]⟩)] rfl

/-- C7: with zero matching files the pipeline completes with an empty
results map and the aggregate is the empty `FilteredKeys` — no bucket at
all, hence no key in any bucket. -/
theorem zero_files_empty_result
    (ex : String → Except ExtractionError ExtractionResult)
    (d : Option String) :
    extractKeysOfFiles [] ex d = Except.ok [] ∧
    filterExtractionResult [] = [] ∧
    ∀ ns kn, fkGet (filterExtractionResult []) ns kn = none :=
  ⟨rfl, rfl, fun _ _ => rfl⟩

/-- C8: every state the worker pool can reach keeps at most `N`
extractions in flight. -/
theorem worker_pool_bounded (N : Nat) (files : List String) (s : PoolState)
    (h : PoolReachable N files s) : s.running.length ≤ N := by
  induction h with
  | init => exact Nat.zero_le N
  | step hreach hstep ih =>
      cases hstep with
      | start f rest s2 hp hlt => simpa using hlt
      | finish f s2 hf => simpa using le_trans (List.length_erase_le _ _) ih

/-- Witness for C8: with capacity 1, starting the only file of a batch
reaches a state with one extraction in flight, within the bound. -/
theorem worker_pool_bounded_witness :
    PoolReachable 1 ["a.ts"] ⟨[], ["a.ts"], []⟩ ∧
    ([("a.ts")] : List String).length ≤ 1 :=
  have hreach : PoolReachable 1 ["a.ts"] ⟨[], ["a.ts"], []⟩ :=
    PoolReachable.step PoolReachable.init
      (PoolStep.start "a.ts" [] (initPool ["a.ts"]) rfl (by decide))
  ⟨hreach, worker_pool_bounded 1 ["a.ts"] ⟨[], ["a.ts"], []⟩ hreach⟩

/-- C9: a key whose default value is absent or the empty string is stored
as `null` in its bucket (`key.defaultValue || null`), and normalising
every default value to its stored form leaves the aggregate unchanged —
an empty-string default is indistinguishable from an absent one. -/
theorem empty_default_value_stored_null (k : ExtractedKey)
    (h : k.defaultValue = none ∨ k.defaultValue = some "")
    (fk : FilteredKeys) (data : ExtractionResults) :
    fkGet (insertKey fk k) (effNs k) k.keyName = some none ∧
    filterExtractionResult (scrubData data) = filterExtractionResult data := by
  constructor
  · rw [fkGet_insertKey]
    rcases h with h | h <;> simp [storedValue, normVal, h]
  · exact filter_scrubData data

/-- Witness for C9: an empty-string default value reads back as `null`,
and scrubbing it to an absent value leaves the aggregate unchanged. -/
theorem empty_default_value_stored_null_witness :
    fkGet (insertKey [] ⟨"x", none, some ""⟩)
      (effNs ⟨"x", none, some ""⟩) "x" = some none ∧
    filterExtractionResult (scrubData [("a.ts", ⟨[⟨"x", none, some ""⟩]⟩)]) =
      filterExtractionResult [("a.ts", ⟨[⟨"x", none, some ""⟩]⟩)] :=
  empty_default_value_stored_null ⟨"x", none, some ""⟩ (Or.inr rfl)
    [] [("a.ts", ⟨[⟨"x", none, some ""⟩]⟩)]

/-- C10: every namespace bucket present in the output of
`filterExtractionResult` is non-empty — a bucket is created only right
before a key is inserted into it. -/
theorem buckets_nonempty (data : ExtractionResults) (p : NsKey × Bucket)
    (hp : p ∈ filterExtractionResult data) : p.2 ≠ [] :=
  (filter_buckets_wf data p hp).2

/-- Witness for C10 at a one-key map. -/
theorem buckets_nonempty_witness :
    (NsKey.str "ns", ([("k", some "v")] : Bucket)) ∈
      filterExtractionResult [("a.ts", ⟨[⟨"k", some "ns", some "v"⟩]⟩)] ∧
    (([("k", some "v")] : Bucket) ≠ []) :=
  ⟨by decide,
    buckets_nonempty [("a.ts", ⟨[⟨"k", some "ns", some "v"⟩]⟩)]
      (NsKey.str "ns", [("k", some "v")]) (by decide)⟩
